import Mathlib

/-
Verification of the mercsniper mod-crash-finder (src/main.py) against its
specification.  The script's data and operations are shallowly embedded:
filenames are lists of characters, the mod inventory is a list of records,
the server is an oracle assigning an exit code and a log text to each run,
and the main loop is a recursive function over the inventory.
-/

set_option maxHeartbeats 1000000
set_option maxRecDepth 100000

namespace MercSniper

/-- The apostrophe character used by the `Mod ID: '<id>'` log pattern. -/
def quoteChar : Char := Char.ofNat 39

/-- The double-quote character used by the JSON-style descriptor pattern. -/
def dquote : Char := Char.ofNat 34

/-- Plain archive extension `.jar` (enabled mods). -/
def jarL : List Char := ".jar".toList

/-- Full disabled name ending `.jar.disabled`: the string replaced by `mod.enable`. -/
def disSuf : List Char := ".jar.disabled".toList

/-- The marker appended by `mod.disable`. -/
def disabledTail : List Char := ".disabled".toList

/-- The fixed log pattern prefix `Mod ID: '` of `extract_missing_ids`. -/
def markerL : List Char := "Mod ID: ".toList ++ [quoteChar]

/-- The hard-coded crash signature (main.py line 40). -/
def ERROR_STR : String :=
  "Attempted to load class net/minecraft/client/gui/Gui for invalid dist DEDICATED_SERVER"

def ERROR_STRL : List Char := ERROR_STR.toList

/-- Fuelled left-to-right scan implementing Python
`name.replace(".jar.disabled", ".jar")` (main.py line 127): at each position,
if the pattern occurs there, emit the replacement and skip past the
occurrence, else emit the character and advance by one.  The fuel only makes
the recursion structural; with fuel at least the length it never runs out. -/
def repAux : Nat → List Char → List Char
  | 0, s => s
  | _ + 1, [] => []
  | f + 1, c :: t =>
    if disSuf <+: (c :: t) then jarL ++ repAux f ((c :: t).drop disSuf.length)
    else c :: repAux f t

/-- Python `name.replace(".jar.disabled", ".jar")`, replacing every occurrence. -/
def replaceJarDisabled (s : List Char) : List Char := repAux s.length s

/-- Index (counting from the end, i.e. in `n.reverse`) of the last `.` of a name. -/
def lastDotRev : List Char → Option Nat
  | [] => none
  | c :: t => if c = '.' then some 0 else (lastDotRev t).map (· + 1)

/-- Embedding of `pathlib.PurePath.suffix`: the part of the name from its last dot on,
provided that dot is neither the leading character (hidden files have no
suffix) nor the final character; otherwise the empty suffix. -/
def pathSuffix (n : List Char) : List Char :=
  (lastDotRev n.reverse).elim []
    (fun j => if j ≠ 0 ∧ 0 < n.length - 1 - j then n.drop (n.length - 1 - j) else [])

/-- Method `mod.enable` (main.py lines 123-133): if the name ends with
`.jar.disabled`, rename it to the name with every occurrence of
`.jar.disabled` replaced by `.jar`; otherwise leave it alone. -/
def enablePath (n : List Char) : List Char :=
  if disSuf <:+ n then replaceJarDisabled n else n

/-- Method `mod.disable` (main.py lines 135-145): if the path's suffix is `.jar`,
append `.disabled` to the name; otherwise leave it alone. -/
def disablePath (n : List Char) : List Char :=
  if pathSuffix n = jarL then n ++ disabledTail else n

/-- One mod JAR: its current (mutable) filename and the id parsed once at
load time (main.py class `mod`). -/
structure Mod where
  path : List Char
  modid : Option (List Char)
deriving DecidableEq

def Mod.enable (m : Mod) : Mod := { m with path := enablePath m.path }

def Mod.disable (m : Mod) : Mod := { m with path := disablePath m.path }

/-- In-place mutation of the i-th mod object of the global inventory list. -/
def modifyAt (f : Mod → Mod) : Nat → List Mod → List Mod
  | _, [] => []
  | 0, m :: ms => f m :: ms
  | n + 1, m :: ms => m :: modifyAt f n ms

/-- Function `enable_all` (main.py lines 164-167): enable every mod of the in-memory
inventory `MODS`; each iteration touches only its own mod object, so the
sequential loop is element-wise. -/
def enable_all (ms : List Mod) : List Mod := ms.map Mod.enable

/-- Function `disable_all` (main.py lines 159-162). -/
def disable_all (ms : List Mod) : List Mod := ms.map Mod.disable

/-- Fuelled scan implementing `re.finditer(r"Mod ID: .([^']+).", content)`
(main.py lines 81-90): at each position, if the literal `Mod ID: '` occurs
there and is followed by a nonempty run of non-apostrophe characters and a
closing apostrophe, record the run and continue after the closing
apostrophe; otherwise advance one character. -/
def exAux : Nat → List Char → List (List Char)
  | 0, _ => []
  | _ + 1, [] => []
  | f + 1, c :: t =>
    if markerL <+: (c :: t) then
      let after := (c :: t).drop markerL.length
      let grp := after.takeWhile (fun ch => ch ≠ quoteChar)
      let rest := after.dropWhile (fun ch => ch ≠ quoteChar)
      if rest = [] then exAux f t
      else if grp = [] then exAux f t
      else grp :: exAux f rest.tail
    else exAux f t

/-- Function `extract_missing_ids`: all ids matched by the fixed pattern, in
occurrence order, duplicates included. -/
def extract_missing_ids (s : List Char) : List (List Char) := exAux s.length s

/-- Abstract outcome of one `subprocess.run` call inside `run_server`. -/
inductive SpawnOutcome
  | exited (code : Int)
  | timedOut
  | spawnFail
deriving DecidableEq

/-- Function `run_server` (main.py lines 92-113): the child's real exit code on
normal completion, the sentinel 124 when `subprocess.TimeoutExpired` is
raised, and 1 when any other exception is caught; total, so it never
propagates an exception. -/
def run_server : SpawnOutcome → Int
  | .exited code => code
  | .timedOut => 124
  | .spawnFail => 1

/-- A mod archive as `get_modid_from_jar` sees it: either unreadable
(corrupt zip / I/O error, i.e. the `except` branch) or a zip with named
entries whose contents are decoded with `errors="ignore"`. -/
inductive Archive
  | corrupt
  | zip (entries : List (List Char × List Char))

/-- The filter of main.py line 56: entry names starting with `META-INF/`
and ending with `mods.toml` or `mod.json`. -/
def isMetaName (n : List Char) : Bool :=
  decide ("META-INF/".toList <+: n) &&
    (decide ("mods.toml".toList <:+ n) || decide ("mod.json".toList <:+ n))

/-- Python's regex `\s` on the ASCII range. -/
def isPySpace (c : Char) : Bool :=
  c = ' ' || c = '\t' || c = '\n' || c = '\r' || c = Char.ofNat 11 || c = Char.ofNat 12

/-- Attempt of the pattern `modId\s*=\s*([^\s]+)` at the start of `s`. -/
def matchModIdAssign (s : List Char) : Option (List Char) :=
  if "modId".toList <+: s then
    match (s.drop 5).dropWhile isPySpace with
    | '=' :: t2 =>
      let grp := (t2.dropWhile isPySpace).takeWhile (fun c => !isPySpace c)
      if grp = [] then none else some grp
    | _ => none
  else none

/-- Scan of `re.search` for the assignment-style pattern: leftmost position where it
matches, scanning forward one character at a time. -/
def searchAssign : Nat → List Char → Option (List Char)
  | 0, _ => none
  | _ + 1, [] => none
  | f + 1, c :: t =>
    match matchModIdAssign (c :: t) with
    | some g => some g
    | none => searchAssign f t

/-- Attempt of the pattern `"modId"\s*:\s*"([^"]+)"` at the start of `s`. -/
def matchModIdJson (s : List Char) : Option (List Char) :=
  if "\"modId\"".toList <+: s then
    match (s.drop 7).dropWhile isPySpace with
    | ':' :: t2 =>
      match t2.dropWhile isPySpace with
      | c3 :: t3 =>
        if c3 = dquote then
          let grp := t3.takeWhile (fun c => c ≠ dquote)
          match t3.dropWhile (fun c => c ≠ dquote) with
          | _ :: _ => if grp = [] then none else some grp
          | [] => none
        else none
      | [] => none
    | _ => none
  else none

/-- Scan of `re.search` for the JSON-style pattern. -/
def searchJson : Nat → List Char → Option (List Char)
  | 0, _ => none
  | _ + 1, [] => none
  | f + 1, c :: t =>
    match matchModIdJson (c :: t) with
    | some g => some g
    | none => searchJson f t

/-- Python `str.strip(chars)`: drop matching characters from both ends. -/
def stripWhile (p : Char → Bool) (s : List Char) : List Char :=
  ((s.dropWhile p).reverse.dropWhile p).reverse

/-- Function `get_modid_from_jar` (main.py lines 47-70): `None` on an unreadable
archive, on a missing descriptor entry, and on descriptor content matching
neither pattern; on an assignment-style match, the group stripped of
whitespace, double quotes, then apostrophes; on a JSON-style match, the
group stripped of whitespace. -/
def get_modid_from_jar : Archive → Option (List Char)
  | .corrupt => none
  | .zip entries =>
    match entries.filter (fun e => isMetaName e.1) with
    | [] => none
    | (_, content) :: _ =>
      match searchAssign content.length content with
      | some g =>
        some (stripWhile (fun c => c = quoteChar)
          (stripWhile (fun c => c = dquote) (stripWhile isPySpace g)))
      | none =>
        match searchJson content.length content with
        | some g => some (stripWhile isPySpace g)
        | none => none

/-- Function `load_mods` (main.py lines 150-156): one `mod` object per file matching
`*.jar` in the directory, with `arch` giving each file's archive contents. -/
def load_mods (dir : List (List Char)) (arch : List Char → Archive) : List Mod :=
  (dir.filter (fun n => decide (jarL <:+ n))).map
    (fun n => { path := n, modid := get_modid_from_jar (arch n) })

/-- Function `find_mod_by_id` (main.py lines 169-174), returning the index of the
first inventory mod whose id equals the target. -/
def find_mod_by_id (ms : List Mod) (tid : List Char) : Option Nat :=
  match ms with
  | [] => none
  | m :: rest => if m.modid = some tid then some 0 else (find_mod_by_id rest tid).map (· + 1)

/-- The dependency-enabling loop of main.py lines 224-231: for each missing
id, look the mod up in the full inventory; if found, enable it and record
it in `temp_mods`; if not, skip it.  Returns the updated inventory and the
indices of the temporarily-enabled mods, in order. -/
def enableDeps : List Mod → List (List Char) → List Mod × List Nat
  | ms, [] => (ms, [])
  | ms, d :: ds =>
    match find_mod_by_id ms d with
    | none => enableDeps ms ds
    | some j =>
      let p := enableDeps (modifyAt Mod.enable j ms) ds
      (p.1, j :: p.2)

/-- Loop `for tm in temp_mods: tm.disable()` (main.py lines 245-246 and 250-251). -/
def disableList : List Mod → List Nat → List Mod
  | ms, [] => ms
  | ms, j :: js => disableList (modifyAt Mod.disable j ms) js

/-- What `main` reports: a first-run crash (printing `m.path`), a
dependency-rerun crash (printing `m.modid`), or no offender. -/
inductive Report
  | crashPath (p : List Char)
  | crashId (i : Option (List Char))
  | noOffender
deriving DecidableEq

def pathAt (ms : List Mod) (i : Nat) : List Char :=
  match ms[i]? with
  | some m => m.path
  | none => []

def modidAt (ms : List Mod) (i : Nat) : Option (List Char) :=
  match ms[i]? with
  | some m => m.modid
  | none => none

/-- The `for idx, m in enumerate(MODS)` loop of `main` (main.py lines
193-260), starting from mod index `i` with `c` mods left to test; `env j`
is the exit code and resulting log text of the j-th server run, and `k`
counts runs performed so far.  Log resets and sleeps have no observable
effect beyond the oracle.  Each iteration: enable mod i and run the server;
on exit code 124 disable it and continue; if the log has the crash string,
report `m.path` and stop; else if missing ids were extracted, enable the
ones found in the inventory, rerun the server (the rerun's exit code is
never examined), and if the new log has the crash string report `m.modid`,
disable the temporarily-enabled mods and mod i, and stop, else disable the
temporarily-enabled mods; finally disable mod i and continue.  After the
last mod, enable every mod and report no offender. -/
def loopFrom (env : Nat → Int × List Char) : Nat → List Mod → Nat → Nat → Report × List Mod
  | 0, ms, _, _ => (Report.noOffender, enable_all ms)
  | c + 1, ms, i, k =>
    let ms1 := modifyAt Mod.enable i ms
    let r := env k
    if r.1 = 124 then
      loopFrom env c (modifyAt Mod.disable i ms1) (i + 1) (k + 1)
    else if ERROR_STRL <:+: r.2 then
      (Report.crashPath (pathAt ms1 i), ms1)
    else
      let missing := extract_missing_ids r.2
      if missing = [] then
        loopFrom env c (modifyAt Mod.disable i ms1) (i + 1) (k + 1)
      else
        let pr := enableDeps ms1 missing
        let r2 := env (k + 1)
        if ERROR_STRL <:+: r2.2 then
          (Report.crashId (modidAt ms i), modifyAt Mod.disable i (disableList pr.1 pr.2))
        else
          loopFrom env c (modifyAt Mod.disable i (disableList pr.1 pr.2)) (i + 1) (k + 2)

/-- Result of `main`: abort with exit status 1 when no mods were found,
otherwise the report together with the final inventory state. -/
inductive MainResult
  | nothingToDo
  | done (r : Report) (final : List Mod)
deriving DecidableEq

/-- Function `main` (main.py lines 177-260) over an already-loaded inventory:
abort if it is empty, otherwise disable every mod and run the loop. -/
def mainRun (env : Nat → Int × List Char) (ms0 : List Mod) : MainResult :=
  if ms0.length = 0 then MainResult.nothingToDo
  else
    let p := loopFrom env ms0.length (disable_all ms0) 0 0
    MainResult.done p.1 p.2

/-- The directory after `enable_all` runs right after `load_mods`: only the
files that matched `*.jar` at load time are in `MODS`, hence only they are
toggled; every other file is untouched. -/
def enableAllDirAfterLoad (dir : List (List Char)) : List (List Char) :=
  dir.map (fun n => if jarL <:+ n then enablePath n else n)

/-- One mutation step the program can perform on the inventory: some mod
object is enabled or disabled. -/
def StepR (ms ms' : List Mod) : Prop :=
  ∃ i, ms' = modifyAt Mod.enable i ms ∨ ms' = modifyAt Mod.disable i ms

/-- Inventory states reachable during a run: every filesystem effect of
`main` goes through `mod.enable` / `mod.disable` on inventory objects. -/
def Reachable (ms ms' : List Mod) : Prop := Relation.ReflTransGen StepR ms ms'

/-- Modelled from the source's `__main__` guard (main.py lines 262-266):
a `KeyboardInterrupt` escaping `main` is caught and `enable_all()` runs on
the inventory as it stood at the interrupt point. -/
def interruptedRun (ms : List Mod) : List Mod := enable_all ms

/-- Name shape invariant maintained by the renames: the name ends in `.jar`
(enabled) or in `.jar.disabled` (disabled). -/
def InvN (n : List Char) : Prop := jarL <:+ n ∨ disSuf <:+ n

def InvL (ms : List Mod) : Prop := ∀ m ∈ ms, InvN m.path

instance (n : List Char) : Decidable (InvN n) := by
  unfold InvN
  infer_instance

instance (ms : List Mod) : Decidable (InvL ms) := by
  unfold InvL
  infer_instance

/-- A well-behaved base name: nonempty, and the enabled form `s ++ ".jar"`
contains no occurrence of `.jar.disabled` (so the all-occurrence
replacement of `mod.enable` only rewrites the trailing marker). -/
def CleanBase (s : List Char) : Prop := s ≠ [] ∧ ¬ disSuf <:+: (s ++ jarL)

instance (s : List Char) : Decidable (CleanBase s) := by
  unfold CleanBase
  infer_instance

/-- A mod filename in a well-behaved state: a clean base name in either its
enabled or its disabled form. -/
def CleanSt (n : List Char) : Prop :=
  ∃ s, CleanBase s ∧ (n = s ++ jarL ∨ n = s ++ disSuf)

/-- Every inventory entry is in a well-behaved state. -/
def allClean (ms : List Mod) : Prop := ∀ j, j < ms.length → CleanSt (pathAt ms j)

/-- A clean name currently in enabled form. -/
def cleanEnabled (n : List Char) : Prop := ∃ s, CleanBase s ∧ n = s ++ jarL

/-- The inventory and temp-mod indices after the dependency-enabling pass
of the iteration for mod `i` whose first run was run `k`. -/
def depRetryState (env : Nat → Int × List Char) (k i : Nat) (ms : List Mod) :
    List Mod × List Nat :=
  enableDeps (modifyAt Mod.enable i ms) (extract_missing_ids (env k).2)

/-- The final inventory when the dependency rerun confirms the crash: all
temporarily-enabled dependencies disabled, then the current mod disabled. -/
def depRetryFinal (env : Nat → Int × List Char) (k i : Nat) (ms : List Mod) : List Mod :=
  modifyAt Mod.disable i
    (disableList (depRetryState env k i ms).1 (depRetryState env k i ms).2)

/-- A log text interleaving junk segments with `Mod ID: '<id>'` matches:
`mkLog [j0, ..., jn] [d1, ..., dn] = j0 ++ marker ++ d1 ++ ' ++ j1 ++ ...`. -/
def mkLog : List (List Char) → List (List Char) → List Char
  | j :: js, d :: ds => j ++ markerL ++ d ++ quoteChar :: mkLog js ds
  | j :: _, [] => j
  | [], _ => []

example : replaceJarDisabled ("a.jar.disabled".toList) = "a.jar".toList := by decide
example : replaceJarDisabled ("a.jar.disabled.jar.disabled".toList) = "a.jar.jar".toList := by
  decide
example : pathSuffix ("a.jar".toList) = jarL := by decide
example : pathSuffix (".jar".toList) = [] := by decide
example : pathSuffix ("a.jar.disabled".toList) = disabledTail := by decide
example : disablePath ("a.jar".toList) = "a.jar.disabled".toList := by decide
example : enablePath ("a.jar.disabled".toList) = "a.jar".toList := by decide
example :
    extract_missing_ids ("xx Mod ID: ".toList ++ [quoteChar] ++ "alpha".toList ++ [quoteChar]
      ++ " y Mod ID: ".toList ++ [quoteChar] ++ "beta".toList ++ [quoteChar])
      = ["alpha".toList, "beta".toList] := by decide
example : extract_missing_ids ("Mod ID: nope".toList) = [] := by decide
example :
    get_modid_from_jar (Archive.zip [("META-INF/mods.toml".toList,
      "x modId = ".toList ++ [dquote] ++ "abc".toList ++ [dquote] ++ " y".toList)])
      = some "abc".toList := by decide
example :
    get_modid_from_jar (Archive.zip [("META-INF/mod.json".toList,
      [dquote] ++ "modId".toList ++ [dquote] ++ " : ".toList ++ [dquote] ++ "mid".toList
        ++ [dquote])])
      = some "mid".toList := by decide
example : get_modid_from_jar (Archive.zip [("META-INF/mods.toml".toList, "junk".toList)])
    = none := by decide

section ScenarioChecks

/-- Scenario A-like: first mod crashes on its first run; reported by path, loop stops
with the culprit still enabled. -/
example :
    mainRun (fun _ => (0, ERROR_STRL)) [⟨"a.jar".toList, some "a".toList⟩]
      = MainResult.done (Report.crashPath "a.jar".toList) [⟨"a.jar".toList, some "a".toList⟩] := by
  decide

/-- Scenario B-like: mod d needs e; rerun with e enabled crashes; culprit is d, both
end disabled. -/
example :
    mainRun
      (fun k => if k = 0 then (0, "Mod ID: ".toList ++ [quoteChar] ++ "e".toList ++ [quoteChar])
        else if k = 1 then (0, ERROR_STRL) else (0, []))
      [⟨"d.jar".toList, some "d".toList⟩, ⟨"e.jar".toList, some "e".toList⟩]
      = MainResult.done (Report.crashId (some "d".toList))
          [⟨"d.jar.disabled".toList, some "d".toList⟩,
           ⟨"e.jar.disabled".toList, some "e".toList⟩] := by
  decide

/-- Scenario C-like: first run times out, mod disabled, loop moves on; scenario D ending:
no crash anywhere, all re-enabled. -/
example :
    mainRun (fun k => if k = 0 then (124, []) else (0, []))
      [⟨"a.jar".toList, some "a".toList⟩, ⟨"b.jar".toList, some "b".toList⟩]
      = MainResult.done Report.noOffender
          [⟨"a.jar".toList, some "a".toList⟩, ⟨"b.jar".toList, some "b".toList⟩] := by
  decide

end ScenarioChecks

section BasicLemmas

lemma disSuf_length : disSuf.length = 13 := rfl

lemma markerL_length : markerL.length = 9 := rfl

lemma jarL_length : jarL.length = 4 := rfl

lemma repAux_congr : ∀ (f g : Nat) (s : List Char), s.length ≤ f → s.length ≤ g →
    repAux f s = repAux g s := by
  intro f
  induction f with
  | zero =>
    intro g s hf _
    have hs : s = [] := List.length_eq_zero.mp (Nat.le_zero.mp hf)
    subst hs
    cases g <;> rfl
  | succ f ih =>
    intro g s hf hg
    cases s with
    | nil => cases g <;> rfl
    | cons c t =>
      cases g with
      | zero => simp at hg
      | succ g =>
        simp only [repAux]
        simp only [List.length_cons] at hf hg
        by_cases hp : disSuf <+: (c :: t)
        · rw [if_pos hp, if_pos hp]
          congr 1
          apply ih <;> simp only [List.length_drop, List.length_cons, disSuf_length] <;> omega
        · rw [if_neg hp, if_neg hp]
          congr 1
          apply ih <;> omega

lemma replaceJarDisabled_nil : replaceJarDisabled [] = [] := rfl

lemma replace_pat_head {s : List Char} (h : disSuf <+: s) :
    replaceJarDisabled s = jarL ++ replaceJarDisabled (s.drop disSuf.length) := by
  cases s with
  | nil => exact absurd (List.prefix_nil.mp h) (by decide)
  | cons c t =>
    show repAux (t.length + 1) (c :: t) = _
    simp only [repAux, if_pos h]
    congr 1
    apply repAux_congr
    · simp only [List.length_drop, List.length_cons, disSuf_length]; omega
    · exact le_rfl

lemma replace_cons_neg {c : Char} {t : List Char} (h : ¬ disSuf <+: (c :: t)) :
    replaceJarDisabled (c :: t) = c :: replaceJarDisabled t := by
  show repAux (t.length + 1) (c :: t) = _
  simp only [repAux, if_neg h]
  rfl

lemma disSuf_no_border : ∀ k, k < 13 → 0 < k → disSuf.take (13 - k) ≠ disSuf.drop k := by
  decide

/-- The all-occurrence replacement of a name that ends in `.jar.disabled`
produces a name that ends in `.jar` (the trailing occurrence is always
replaced: the pattern cannot overlap itself). -/
lemma replace_suffix_of_suffix : ∀ (n : Nat) (s : List Char), s.length ≤ n → disSuf <:+ s →
    jarL <:+ replaceJarDisabled s := by
  intro n
  induction n with
  | zero =>
    intro s hl hs
    have h0 : s = [] := List.length_eq_zero.mp (Nat.le_zero.mp hl)
    subst h0
    obtain ⟨u, hu⟩ := hs
    exact absurd (List.append_eq_nil.mp hu).2 (by decide)
  | succ n ih =>
    intro s hl hs
    by_cases hp : disSuf <+: s
    · obtain ⟨r, hr⟩ := hp
      have hdrop : s.drop disSuf.length = r := by rw [← hr]; exact List.drop_left disSuf r
      rw [replace_pat_head ⟨r, hr⟩, hdrop]
      by_cases hr0 : r = []
      · subst hr0
        rw [replaceJarDisabled_nil, List.append_nil]
      · have hslen : s.length = 13 + r.length := by
          rw [← hr]; simp [List.length_append, disSuf_length]
        have hsuf_r : disSuf <:+ r := by
          obtain ⟨v, hv⟩ := hs
          have hvlen : v.length = r.length := by
            have h2 := congrArg List.length hv
            simp only [List.length_append, disSuf_length] at h2
            omega
          by_cases hlen13 : 13 ≤ r.length
          · have hreq : r = v.drop 13 ++ disSuf := by
              rw [← hdrop, ← hv, List.drop_append_eq_append_drop]
              have h13 : 13 - v.length = 0 := by omega
              rw [disSuf_length, h13, List.drop_zero]
            rw [hreq]
            exact List.suffix_append _ _
          · exfalso
            have hk1 : r.length < 13 := by omega
            have hk0 : 0 < r.length := List.length_pos.mpr hr0
            have h1 : s.drop v.length = disSuf := by rw [← hv]; exact List.drop_left v disSuf
            have h2 : s.drop v.length = disSuf.drop v.length ++ r := by
              rw [← hr, List.drop_append_eq_append_drop]
              have hz : v.length - disSuf.length = 0 := by
                rw [disSuf_length]; omega
              rw [hz, List.drop_zero]
            have h3 : disSuf = disSuf.drop r.length ++ r := by
              rw [← hvlen, ← h2, h1]
            have h4 : disSuf.take (13 - r.length) = disSuf.drop r.length := by
              have h5 := congrArg (List.take (13 - r.length)) h3
              rw [List.take_append_eq_append_take] at h5
              have hdl : (disSuf.drop r.length).length = 13 - r.length := by
                simp [List.length_drop, disSuf_length]
              rw [List.take_of_length_le (le_of_eq hdl), hdl, Nat.sub_self,
                List.take_zero, List.append_nil] at h5
              exact h5
            exact disSuf_no_border r.length hk1 hk0 h4
        have hrec := ih r (by omega) hsuf_r
        obtain ⟨w, hw⟩ := hrec
        exact ⟨jarL ++ w, by rw [List.append_assoc, hw]⟩
    · cases s with
      | nil =>
        obtain ⟨u, hu⟩ := hs
        exact absurd (List.append_eq_nil.mp hu).2 (by decide)
      | cons c t =>
        rw [replace_cons_neg hp]
        have hst : disSuf <:+ t := by
          obtain ⟨v, hv⟩ := hs
          cases v with
          | nil =>
            exfalso
            apply hp
            rw [List.nil_append] at hv
            rw [← hv]
          | cons a v' =>
            rw [List.cons_append] at hv
            injection hv with h1 h2
            rw [← h2]
            exact List.suffix_append v' disSuf
        have hrec := ih t (by simp only [List.length_cons] at hl; omega) hst
        obtain ⟨w, hw⟩ := hrec
        exact ⟨c :: w, by rw [List.cons_append, hw]⟩

lemma replace_jar_suffix {s : List Char} (h : disSuf <:+ s) : jarL <:+ replaceJarDisabled s :=
  replace_suffix_of_suffix s.length s le_rfl h

lemma infix_append_left {l x y : List Char} (h : l <:+: x) : l <:+: x ++ y := by
  obtain ⟨a, b, hab⟩ := h
  exact ⟨a, b ++ y, by rw [← hab]; simp [List.append_assoc]⟩

/-- On a base name with no embedded occurrence of the pattern, the
replacement rewrites exactly the trailing occurrence. -/
lemma replace_clean : ∀ (x : List Char), ¬ disSuf <:+: x →
    replaceJarDisabled (x ++ disSuf) = x ++ jarL := by
  intro x
  induction x with
  | nil =>
    intro _
    rw [List.nil_append, List.nil_append, replace_pat_head List.prefix_rfl]
    have hd : disSuf.drop disSuf.length = ([] : List Char) := rfl
    rw [hd, replaceJarDisabled_nil, List.append_nil]
  | cons c x' ih =>
    intro hni
    have hp : ¬ disSuf <+: ((c :: x') ++ disSuf) := by
      intro hp
      have htake : disSuf = ((c :: x') ++ disSuf).take 13 := by
        have h0 := List.prefix_iff_eq_take.mp hp
        rw [disSuf_length] at h0
        exact h0
      rw [List.take_append_eq_append_take] at htake
      by_cases hy : 13 ≤ (c :: x').length
      · have hz : 13 - (c :: x').length = 0 := by omega
        rw [hz, List.take_zero, List.append_nil] at htake
        apply hni
        refine ⟨[], (c :: x').drop 13, ?_⟩
        rw [List.nil_append, htake, List.take_append_drop]
      · have hyle : (c :: x').length ≤ 13 := by omega
        rw [List.take_of_length_le hyle] at htake
        have heq : (c :: x') ++ disSuf.take (13 - (c :: x').length)
            = disSuf.take (c :: x').length ++ disSuf.drop (c :: x').length := by
          rw [List.take_append_drop]
          exact htake.symm
        have hsplit := List.append_inj heq
          (by simp only [List.length_take, disSuf_length]; omega)
        have hk0 : 0 < (c :: x').length := by simp
        have hborder : disSuf.take (13 - (c :: x').length) = disSuf.drop (c :: x').length :=
          hsplit.2
        by_cases h13 : (c :: x').length < 13
        · exact disSuf_no_border (c :: x').length h13 hk0 hborder
        · have hc13 : (c :: x').length = 13 := by omega
          apply hni
          refine ⟨[], [], ?_⟩
          have hceq : c :: x' = disSuf := hsplit.1.trans (by
            rw [hc13]
            exact List.take_of_length_le (by rw [disSuf_length]))
          rw [List.nil_append, List.append_nil, hceq]
    have hp' : ¬ disSuf <+: (c :: (x' ++ disSuf)) := by
      rw [← List.cons_append]
      exact hp
    rw [List.cons_append, replace_cons_neg hp', ih (fun hi => hni (List.infix_cons hi)),
      ← List.cons_append]

end BasicLemmas

section PathLemmas

lemma lastDotRev_rajl (l : List Char) :
    lastDotRev ('r' :: 'a' :: 'j' :: '.' :: l) = some 3 := rfl

lemma lastDotRev_disrev (l : List Char) :
    lastDotRev ('d' :: 'e' :: 'l' :: 'b' :: 'a' :: 's' :: 'i' :: 'd' :: '.' :: l) = some 8 := rfl

lemma pathSuffix_append_jar {s : List Char} (hs : s ≠ []) : pathSuffix (s ++ jarL) = jarL := by
  have h1 : (s ++ jarL).reverse = 'r' :: 'a' :: 'j' :: '.' :: s.reverse := by
    rw [List.reverse_append]
    rfl
  unfold pathSuffix
  rw [h1, lastDotRev_rajl]
  simp only [Option.elim]
  have hlen : (s ++ jarL).length = s.length + 4 := by
    simp [List.length_append, jarL_length]
  rw [hlen]
  have h2 : s.length + 4 - 1 - 3 = s.length := by omega
  rw [h2, if_pos ⟨by decide, List.length_pos.mpr hs⟩]
  exact List.drop_left s jarL

lemma pathSuffix_append_disSuf (s : List Char) : pathSuffix (s ++ disSuf) = disabledTail := by
  have h1 : (s ++ disSuf).reverse
      = 'd' :: 'e' :: 'l' :: 'b' :: 'a' :: 's' :: 'i' :: 'd' :: '.'
        :: 'r' :: 'a' :: 'j' :: '.' :: s.reverse := by
    rw [List.reverse_append]
    rfl
  unfold pathSuffix
  rw [h1, lastDotRev_disrev]
  simp only [Option.elim]
  have hlen : (s ++ disSuf).length = s.length + 13 := by
    simp [List.length_append, disSuf_length]
  rw [hlen]
  have h2 : s.length + 13 - 1 - 8 = s.length + 4 := by omega
  rw [h2, if_pos ⟨by decide, by omega⟩, List.drop_append_eq_append_drop]
  have h3 : s.drop (s.length + 4) = [] := List.drop_eq_nil_of_le (by omega)
  have h4 : s.length + 4 - s.length = 4 := by omega
  rw [h3, h4, List.nil_append]
  rfl

lemma pathSuffix_disSuf_ne_jar (s : List Char) : pathSuffix (s ++ disSuf) ≠ jarL := by
  rw [pathSuffix_append_disSuf]
  decide

lemma jar_suffix_of_pathSuffix_eq {n : List Char} (h : pathSuffix n = jarL) : jarL <:+ n := by
  unfold pathSuffix at h
  cases hld : lastDotRev n.reverse with
  | none =>
    rw [hld] at h
    simp only [Option.elim] at h
    exact absurd h (by decide)
  | some j =>
    rw [hld] at h
    simp only [Option.elim] at h
    by_cases hc : j ≠ 0 ∧ 0 < n.length - 1 - j
    · rw [if_pos hc] at h
      rw [← h]
      exact List.drop_suffix _ _
    · rw [if_neg hc] at h
      exact absurd h (by decide)

lemma disablePath_append_jar {s : List Char} (hs : s ≠ []) :
    disablePath (s ++ jarL) = s ++ disSuf := by
  unfold disablePath
  rw [if_pos (pathSuffix_append_jar hs), List.append_assoc]
  rfl

lemma disablePath_append_disSuf (s : List Char) :
    disablePath (s ++ disSuf) = s ++ disSuf := by
  unfold disablePath
  rw [if_neg (pathSuffix_disSuf_ne_jar s)]

lemma not_disSuf_suffix_of_jar {n : List Char} (h : jarL <:+ n) : ¬ disSuf <:+ n := by
  intro hd
  obtain ⟨u, hu⟩ := h
  obtain ⟨v, hv⟩ := hd
  have h1 : n.getLast? = some 'r' := by
    rw [← hu, List.getLast?_append]
    rfl
  have h2 : n.getLast? = some 'd' := by
    rw [← hv, List.getLast?_append]
    rfl
  rw [h1] at h2
  exact absurd h2 (by decide)

lemma jar_suffix_not_disabledTail {n : List Char} (h : jarL <:+ n) :
    ¬ disabledTail <:+ n := by
  intro hd
  obtain ⟨u, hu⟩ := h
  obtain ⟨v, hv⟩ := hd
  have h1 : n.getLast? = some 'r' := by
    rw [← hu, List.getLast?_append]
    rfl
  have h2 : n.getLast? = some 'd' := by
    rw [← hv, List.getLast?_append]
    rfl
  rw [h1] at h2
  exact absurd h2 (by decide)

lemma enablePath_of_disSuf {n : List Char} (h : disSuf <:+ n) :
    enablePath n = replaceJarDisabled n := if_pos h

lemma enablePath_of_jar {n : List Char} (h : jarL <:+ n) : enablePath n = n :=
  if_neg (not_disSuf_suffix_of_jar h)

lemma enablePath_jar_of_inv {n : List Char} (h : InvN n) : jarL <:+ enablePath n := by
  cases h with
  | inl hj => rw [enablePath_of_jar hj]; exact hj
  | inr hd => rw [enablePath_of_disSuf hd]; exact replace_jar_suffix hd

lemma enablePath_inv {n : List Char} (h : InvN n) : InvN (enablePath n) :=
  Or.inl (enablePath_jar_of_inv h)

lemma disablePath_inv {n : List Char} (h : InvN n) : InvN (disablePath n) := by
  unfold disablePath
  by_cases hc : pathSuffix n = jarL
  · rw [if_pos hc]
    right
    obtain ⟨u, hu⟩ := jar_suffix_of_pathSuffix_eq hc
    refine ⟨u, ?_⟩
    rw [← hu, List.append_assoc]
    rfl
  · rw [if_neg hc]
    exact h

lemma clean_toggle {n : List Char} (h : CleanSt n) :
    ∃ s, CleanBase s ∧ (n = s ++ jarL ∨ n = s ++ disSuf)
      ∧ enablePath n = s ++ jarL ∧ disablePath n = s ++ disSuf := by
  obtain ⟨s, hb, hor⟩ := h
  refine ⟨s, hb, hor, ?_, ?_⟩
  · cases hor with
    | inl he => rw [he, enablePath_of_jar (List.suffix_append s jarL)]
    | inr hd =>
      rw [hd, enablePath_of_disSuf (List.suffix_append s disSuf)]
      exact replace_clean s (fun hi => hb.2 (infix_append_left hi))
  · cases hor with
    | inl he => rw [he, disablePath_append_jar hb.1]
    | inr hd => rw [hd, disablePath_append_disSuf]

lemma cleanSt_enable {n : List Char} (h : CleanSt n) : CleanSt (enablePath n) := by
  obtain ⟨s, hb, _, he, _⟩ := clean_toggle h
  exact ⟨s, hb, Or.inl he⟩

lemma cleanSt_disable {n : List Char} (h : CleanSt n) : CleanSt (disablePath n) := by
  obtain ⟨s, hb, _, _, hd⟩ := clean_toggle h
  exact ⟨s, hb, Or.inr hd⟩

end PathLemmas

section ListOpLemmas

lemma modifyAt_length (f : Mod → Mod) : ∀ (i : Nat) (ms : List Mod),
    (modifyAt f i ms).length = ms.length := by
  intro i ms
  induction ms generalizing i with
  | nil => cases i <;> rfl
  | cons m rest ih =>
    cases i with
    | zero => rfl
    | succ j => simp only [modifyAt, List.length_cons, ih]

lemma getElem?_modifyAt_self (f : Mod → Mod) : ∀ (i : Nat) (ms : List Mod),
    (modifyAt f i ms)[i]? = (ms[i]?).map f := by
  intro i ms
  induction ms generalizing i with
  | nil => cases i <;> rfl
  | cons m rest ih =>
    cases i with
    | zero => simp [modifyAt]
    | succ j => simpa [modifyAt] using ih j

lemma getElem?_modifyAt_ne (f : Mod → Mod) : ∀ (i j : Nat) (ms : List Mod), i ≠ j →
    (modifyAt f i ms)[j]? = ms[j]? := by
  intro i j ms
  induction ms generalizing i j with
  | nil => intro _; cases i <;> rfl
  | cons m rest ih =>
    intro hij
    cases i with
    | zero =>
      cases j with
      | zero => exact absurd rfl hij
      | succ j' => simp [modifyAt]
    | succ i' =>
      cases j with
      | zero => simp [modifyAt]
      | succ j' => simpa [modifyAt] using ih i' j' (fun h => hij (by rw [h]))

lemma pathAt_modifyAt_enable (i : Nat) (ms : List Mod) :
    pathAt (modifyAt Mod.enable i ms) i = enablePath (pathAt ms i) := by
  unfold pathAt
  rw [getElem?_modifyAt_self]
  cases ms[i]? with
  | none => rfl
  | some m => rfl

lemma pathAt_modifyAt_disable (i : Nat) (ms : List Mod) :
    pathAt (modifyAt Mod.disable i ms) i = disablePath (pathAt ms i) := by
  unfold pathAt
  rw [getElem?_modifyAt_self]
  cases ms[i]? with
  | none => rfl
  | some m => rfl

lemma pathAt_modifyAt_ne (f : Mod → Mod) (i j : Nat) (ms : List Mod) (h : i ≠ j) :
    pathAt (modifyAt f i ms) j = pathAt ms j := by
  unfold pathAt
  rw [getElem?_modifyAt_ne f i j ms h]

lemma modidAt_modifyAt (f : Mod → Mod) (hf : ∀ m, (f m).modid = m.modid) (i j : Nat)
    (ms : List Mod) : modidAt (modifyAt f i ms) j = modidAt ms j := by
  unfold modidAt
  by_cases hij : i = j
  · subst hij
    rw [getElem?_modifyAt_self]
    cases ms[i]? with
    | none => rfl
    | some m => simp [hf]
  · rw [getElem?_modifyAt_ne f i j ms hij]

lemma find_mod_by_id_lt {tid : List Char} : ∀ {ms : List Mod} {j : Nat},
    find_mod_by_id ms tid = some j → j < ms.length ∧ modidAt ms j = some tid := by
  intro ms
  induction ms with
  | nil => intro j h; exact absurd h (by simp [find_mod_by_id])
  | cons m rest ih =>
    intro j h
    by_cases hm : m.modid = some tid
    · simp only [find_mod_by_id, if_pos hm] at h
      injection h with h'
      subst h'
      exact ⟨by simp, by simpa [modidAt] using hm⟩
    · simp only [find_mod_by_id, if_neg hm] at h
      cases hfr : find_mod_by_id rest tid with
      | none => rw [hfr] at h; simp at h
      | some j' =>
        rw [hfr] at h
        simp only [Option.map_some'] at h
        injection h with h'
        subst h'
        obtain ⟨h1, h2⟩ := ih hfr
        exact ⟨by simpa using h1, by simpa [modidAt] using h2⟩

lemma find_mod_by_id_modifyAt (f : Mod → Mod) (hf : ∀ m, (f m).modid = m.modid)
    (tid : List Char) : ∀ (i : Nat) (ms : List Mod),
    find_mod_by_id (modifyAt f i ms) tid = find_mod_by_id ms tid := by
  intro i ms
  induction ms generalizing i with
  | nil => cases i <;> rfl
  | cons m rest ih =>
    cases i with
    | zero => simp only [modifyAt, find_mod_by_id, hf]
    | succ i' => simp only [modifyAt, find_mod_by_id, ih]

lemma invL_modifyAt (f : Mod → Mod) (hf : ∀ m, InvN m.path → InvN (f m).path) :
    ∀ (i : Nat) (ms : List Mod), InvL ms → InvL (modifyAt f i ms) := by
  intro i ms
  induction ms generalizing i with
  | nil => intro h; cases i <;> exact h
  | cons m rest ih =>
    intro h
    cases i with
    | zero =>
      intro x hx
      rcases List.mem_cons.mp hx with hx | hx
      · rw [hx]; exact hf m (h m (List.mem_cons_self m rest))
      · exact h x (List.mem_cons_of_mem m hx)
    | succ i' =>
      intro x hx
      rcases List.mem_cons.mp hx with hx | hx
      · rw [hx]; exact h m (List.mem_cons_self m rest)
      · exact ih i' (fun y hy => h y (List.mem_cons_of_mem m hy)) x hx

lemma invL_enableAt (i : Nat) (ms : List Mod) (h : InvL ms) :
    InvL (modifyAt Mod.enable i ms) :=
  invL_modifyAt Mod.enable (fun _ hm => enablePath_inv hm) i ms h

lemma invL_disableAt (i : Nat) (ms : List Mod) (h : InvL ms) :
    InvL (modifyAt Mod.disable i ms) :=
  invL_modifyAt Mod.disable (fun _ hm => disablePath_inv hm) i ms h

lemma invL_enableDeps : ∀ (ds : List (List Char)) (ms : List Mod), InvL ms →
    InvL (enableDeps ms ds).1 ∧ (enableDeps ms ds).1.length = ms.length := by
  intro ds
  induction ds with
  | nil => intro ms h; exact ⟨h, rfl⟩
  | cons d ds ih =>
    intro ms h
    cases hf : find_mod_by_id ms d with
    | none => simpa [enableDeps, hf] using ih ms h
    | some j =>
      have h1 := ih (modifyAt Mod.enable j ms) (invL_enableAt j ms h)
      simp only [enableDeps, hf]
      exact ⟨h1.1, h1.2.trans (modifyAt_length Mod.enable j ms)⟩

lemma invL_disableList : ∀ (js : List Nat) (ms : List Mod), InvL ms →
    InvL (disableList ms js) ∧ (disableList ms js).length = ms.length := by
  intro js
  induction js with
  | nil => intro ms h; exact ⟨h, rfl⟩
  | cons j js ih =>
    intro ms h
    have h1 := ih (modifyAt Mod.disable j ms) (invL_disableAt j ms h)
    simp only [disableList]
    exact ⟨h1.1, h1.2.trans (modifyAt_length Mod.disable j ms)⟩

lemma invL_enable_all {ms : List Mod} (h : InvL ms) :
    ∀ m ∈ enable_all ms, jarL <:+ m.path := by
  intro m hm
  obtain ⟨m', hm', rfl⟩ := List.mem_map.mp hm
  exact enablePath_jar_of_inv (h m' hm')

lemma invL_disable_all {ms : List Mod} (h : InvL ms) : InvL (disable_all ms) := by
  intro m hm
  obtain ⟨m', hm', rfl⟩ := List.mem_map.mp hm
  exact disablePath_inv (h m' hm')

lemma invL_of_allJar {ms : List Mod} (h : ∀ m ∈ ms, jarL <:+ m.path) : InvL ms :=
  fun m hm => Or.inl (h m hm)

/-- When no log ever contains the crash string, the loop always reaches its
end, reports no offender, and the final inventory is fully enabled. -/
lemma loopFrom_noCrash (env : Nat → Int × List Char)
    (hnc : ∀ j, ¬ ERROR_STRL <:+: (env j).2) :
    ∀ (c : Nat) (ms : List Mod) (i k : Nat), InvL ms →
      (loopFrom env c ms i k).1 = Report.noOffender
        ∧ ∀ m ∈ (loopFrom env c ms i k).2, jarL <:+ m.path := by
  intro c
  induction c with
  | zero =>
    intro ms i k h
    exact ⟨rfl, invL_enable_all h⟩
  | succ c ih =>
    intro ms i k h
    simp only [loopFrom]
    by_cases h124 : (env k).1 = 124
    · rw [if_pos h124]
      exact ih _ _ _ (invL_disableAt _ _ (invL_enableAt _ _ h))
    · rw [if_neg h124, if_neg (hnc k)]
      by_cases hm : extract_missing_ids (env k).2 = []
      · rw [if_pos hm]
        exact ih _ _ _ (invL_disableAt _ _ (invL_enableAt _ _ h))
      · rw [if_neg hm, if_neg (hnc (k + 1))]
        exact ih _ _ _ (invL_disableAt _ _
          (invL_disableList _ _ (invL_enableDeps _ _ (invL_enableAt _ _ h)).1).1)

end ListOpLemmas

section CleanLemmas

lemma allClean_enableAt {ms : List Mod} (i : Nat) (h : allClean ms) :
    allClean (modifyAt Mod.enable i ms) := by
  intro j hj
  rw [modifyAt_length] at hj
  by_cases hij : i = j
  · subst hij
    rw [pathAt_modifyAt_enable]
    exact cleanSt_enable (h i hj)
  · rw [pathAt_modifyAt_ne _ _ _ _ hij]
    exact h j hj

lemma allClean_disableAt {ms : List Mod} (i : Nat) (h : allClean ms) :
    allClean (modifyAt Mod.disable i ms) := by
  intro j hj
  rw [modifyAt_length] at hj
  by_cases hij : i = j
  · subst hij
    rw [pathAt_modifyAt_disable]
    exact cleanSt_disable (h i hj)
  · rw [pathAt_modifyAt_ne _ _ _ _ hij]
    exact h j hj

lemma cleanEnabled_enablePath_fix {n : List Char} (h : cleanEnabled n) : enablePath n = n := by
  obtain ⟨s, _, rfl⟩ := h
  exact enablePath_of_jar (List.suffix_append s jarL)

lemma cleanSt_disSuf_form {n : List Char} (hc : CleanSt n) (hd : disSuf <:+ n) :
    ∃ s, CleanBase s ∧ n = s ++ disSuf := by
  obtain ⟨s, hb, hor⟩ := hc
  cases hor with
  | inl he =>
    exfalso
    exact not_disSuf_suffix_of_jar (he ▸ List.suffix_append s jarL) hd
  | inr hde => exact ⟨s, hb, hde⟩

/-- Behavior of the dependency-enabling pass on a clean inventory: length
and ids are unchanged, cleanliness is kept, enabled entries keep their
names, and every recorded index is in range and ends up enabled. -/
lemma enableDeps_spec : ∀ (ds : List (List Char)) (ms : List Mod), allClean ms →
    (enableDeps ms ds).1.length = ms.length
    ∧ allClean (enableDeps ms ds).1
    ∧ (∀ j, cleanEnabled (pathAt ms j) → pathAt (enableDeps ms ds).1 j = pathAt ms j)
    ∧ (∀ j ∈ (enableDeps ms ds).2, j < ms.length ∧ cleanEnabled (pathAt (enableDeps ms ds).1 j))
    ∧ (∀ j, modidAt (enableDeps ms ds).1 j = modidAt ms j)
    ∧ (∀ d ∈ ds, ∀ j, find_mod_by_id ms d = some j → j ∈ (enableDeps ms ds).2) := by
  intro ds
  induction ds with
  | nil =>
    intro ms h
    exact ⟨rfl, h, fun j _ => rfl, fun j hj => absurd hj (by simp [enableDeps]), fun j => rfl,
      fun d hd => absurd hd (by simp)⟩
  | cons d ds ih =>
    intro ms h
    cases hf : find_mod_by_id ms d with
    | none =>
      obtain ⟨ihlen, ihclean, ihfix, ihmem, ihmid, ihfound⟩ := ih ms h
      simp only [enableDeps, hf]
      refine ⟨ihlen, ihclean, ihfix, ihmem, ihmid, ?_⟩
      intro d' hd' j hj
      rcases List.mem_cons.mp hd' with hd' | hd'
      · subst hd'
        rw [hf] at hj
        exact absurd hj (by simp)
      · exact ihfound d' hd' j hj
    | some j0 =>
      obtain ⟨hj0lt, _⟩ := find_mod_by_id_lt hf
      have hcl0 := h j0 hj0lt
      obtain ⟨s0, hb0, _, hen0, _⟩ := clean_toggle hcl0
      have hms' : allClean (modifyAt Mod.enable j0 ms) := allClean_enableAt j0 h
      obtain ⟨ihlen, ihclean, ihfix, ihmem, ihmid, ihfound⟩ := ih (modifyAt Mod.enable j0 ms) hms'
      have hp0 : pathAt (modifyAt Mod.enable j0 ms) j0 = s0 ++ jarL := by
        rw [pathAt_modifyAt_enable, hen0]
      have hfix' : ∀ j, cleanEnabled (pathAt ms j) →
          pathAt (enableDeps (modifyAt Mod.enable j0 ms) ds).1 j = pathAt ms j := by
        intro j hj
        by_cases hjj : j0 = j
        · subst hjj
          rw [ihfix j0 (by rw [hp0]; exact ⟨s0, hb0, rfl⟩), pathAt_modifyAt_enable,
            cleanEnabled_enablePath_fix hj]
        · rw [ihfix j (by rw [pathAt_modifyAt_ne _ _ _ _ hjj]; exact hj),
            pathAt_modifyAt_ne _ _ _ _ hjj]
      simp only [enableDeps, hf]
      refine ⟨ihlen.trans (modifyAt_length Mod.enable j0 ms), ihclean, hfix', ?_, ?_, ?_⟩
      · intro j hj
        rcases List.mem_cons.mp hj with hj | hj
        · subst hj
          refine ⟨hj0lt, ?_⟩
          rw [ihfix j (by rw [hp0]; exact ⟨s0, hb0, rfl⟩), hp0]
          exact ⟨s0, hb0, rfl⟩
        · have h2 := ihmem j hj
          rw [modifyAt_length] at h2
          exact h2
      · intro j
        rw [ihmid j, modidAt_modifyAt Mod.enable (fun _ => rfl) j0 j ms]
      · intro d' hd' j hj
        rcases List.mem_cons.mp hd' with hd' | hd'
        · subst hd'
          rw [hf] at hj
          injection hj with hj
          subst hj
          exact List.mem_cons_self _ _
        · refine List.mem_cons_of_mem _ (ihfound d' hd' j ?_)
          rw [find_mod_by_id_modifyAt Mod.enable (fun _ => rfl) d' j0 ms]
          exact hj

/-- Behavior of the temp-mod disabling pass on a clean inventory. -/
lemma disableList_spec : ∀ (js : List Nat) (ms : List Mod), allClean ms →
    (disableList ms js).length = ms.length
    ∧ allClean (disableList ms js)
    ∧ (∀ j, disSuf <:+ pathAt ms j → pathAt (disableList ms js) j = pathAt ms j)
    ∧ (∀ j ∈ js, j < ms.length → disSuf <:+ pathAt (disableList ms js) j)
    ∧ (∀ j, j ∉ js → pathAt (disableList ms js) j = pathAt ms j) := by
  intro js
  induction js with
  | nil =>
    intro ms h
    exact ⟨rfl, h, fun j _ => rfl, fun j hj => absurd hj (by simp), fun j _ => rfl⟩
  | cons j0 js ih =>
    intro ms h
    have hms' : allClean (modifyAt Mod.disable j0 ms) := allClean_disableAt j0 h
    obtain ⟨ihlen, ihclean, ihfix, ihmem, ihout⟩ := ih (modifyAt Mod.disable j0 ms) hms'
    have hfixd : ∀ j, disSuf <:+ pathAt ms j →
        pathAt (modifyAt Mod.disable j0 ms) j = pathAt ms j := by
      intro j hj
      by_cases hjj : j0 = j
      · subst hjj
        by_cases hlt : j0 < ms.length
        · obtain ⟨s, hb, hform⟩ := cleanSt_disSuf_form (h j0 hlt) hj
          rw [pathAt_modifyAt_disable, hform, disablePath_append_disSuf]
        · have : pathAt ms j0 = [] := by
            unfold pathAt
            rw [List.getElem?_eq_none (by omega)]
          rw [this] at hj
          exact absurd (List.eq_nil_of_suffix_nil hj) (by decide)
      · rw [pathAt_modifyAt_ne _ _ _ _ hjj]
    simp only [disableList]
    refine ⟨ihlen.trans (modifyAt_length Mod.disable j0 ms), ihclean, ?_, ?_, ?_⟩
    · intro j hj
      rw [ihfix j (by rw [hfixd j hj]; exact hj), hfixd j hj]
    · intro j hj hlt
      rcases List.mem_cons.mp hj with hj | hj
      · subst hj
        obtain ⟨s, hb, _, _, hd⟩ := clean_toggle (h j hlt)
        have hpd : pathAt (modifyAt Mod.disable j ms) j = s ++ disSuf := by
          rw [pathAt_modifyAt_disable, hd]
        rw [ihfix j (by rw [hpd]; exact List.suffix_append s disSuf), hpd]
        exact List.suffix_append s disSuf
      · exact ihmem j hj (by rw [modifyAt_length]; exact hlt)
    · intro j hj
      have hj0 : j0 ≠ j := fun he => hj (he ▸ List.mem_cons_self j0 js)
      have hjs : j ∉ js := fun hm => hj (List.mem_cons_of_mem j0 hm)
      rw [ihout j hjs, pathAt_modifyAt_ne _ _ _ _ hj0]

lemma disSuf_suffix_after_disableAt {ms : List Mod} {j : Nat} (hX : allClean ms)
    (hjlt : j < ms.length) (hj : disSuf <:+ pathAt ms j) (i : Nat) :
    disSuf <:+ pathAt (modifyAt Mod.disable i ms) j := by
  by_cases hij : i = j
  · subst hij
    rw [pathAt_modifyAt_disable]
    obtain ⟨s, _, hform⟩ := cleanSt_disSuf_form (hX i hjlt) hj
    rw [hform, disablePath_append_disSuf]
    exact List.suffix_append s disSuf
  · rw [pathAt_modifyAt_ne _ _ _ _ hij]
    exact hj

end CleanLemmas

section LoopLemmas

/-- The loop only looks at runs from the current run counter on. -/
lemma loopFrom_congr (env env' : Nat → Int × List Char) :
    ∀ (c : Nat) (ms : List Mod) (i k : Nat), (∀ j, k ≤ j → env j = env' j) →
      loopFrom env c ms i k = loopFrom env' c ms i k := by
  intro c
  induction c with
  | zero => intro ms i k _; rfl
  | succ c ih =>
    intro ms i k h
    have hk : env k = env' k := h k le_rfl
    have hk1 : env (k + 1) = env' (k + 1) := h (k + 1) (by omega)
    have hrest : ∀ j, k + 1 ≤ j → env j = env' j := fun j hj => h j (by omega)
    have hrest2 : ∀ j, k + 2 ≤ j → env j = env' j := fun j hj => h j (by omega)
    simp only [loopFrom, hk, hk1]
    by_cases h124 : (env' k).1 = 124
    · rw [if_pos h124, if_pos h124, ih _ _ _ hrest]
    · rw [if_neg h124, if_neg h124]
      by_cases hcr : ERROR_STRL <:+: (env' k).2
      · rw [if_pos hcr, if_pos hcr]
      · rw [if_neg hcr, if_neg hcr]
        by_cases hm : extract_missing_ids (env' k).2 = []
        · rw [if_pos hm, if_pos hm, ih _ _ _ hrest]
        · rw [if_neg hm, if_neg hm]
          by_cases hcr2 : ERROR_STRL <:+: (env' (k + 1)).2
          · rw [if_pos hcr2, if_pos hcr2]
          · rw [if_neg hcr2, if_neg hcr2, ih _ _ _ hrest2]

lemma invL_reachable {ms ms' : List Mod} (h : InvL ms) (hr : Reachable ms ms') : InvL ms' := by
  induction hr with
  | refl => exact h
  | tail _ hstep ih =>
    obtain ⟨i, hc⟩ := hstep
    cases hc with
    | inl he => rw [he]; exact invL_enableAt i _ ih
    | inr hd => rw [hd]; exact invL_disableAt i _ ih

end LoopLemmas

section ExtractLemmas

lemma markerL_no_border : ∀ k, k < 9 → 0 < k → markerL.take (9 - k) ≠ markerL.drop k := by
  decide

lemma exAux_congr : ∀ (f g : Nat) (s : List Char), s.length ≤ f → s.length ≤ g →
    exAux f s = exAux g s := by
  intro f
  induction f with
  | zero =>
    intro g s hf _
    have hs : s = [] := List.length_eq_zero.mp (Nat.le_zero.mp hf)
    subst hs
    cases g <;> rfl
  | succ f ih =>
    intro g s hf hg
    cases s with
    | nil => cases g <;> rfl
    | cons c t =>
      cases g with
      | zero => simp at hg
      | succ g =>
        simp only [exAux]
        simp only [List.length_cons] at hf hg
        by_cases hp : markerL <+: (c :: t)
        · rw [if_pos hp, if_pos hp]
          by_cases hdw : ((c :: t).drop markerL.length).dropWhile (fun ch => ch ≠ quoteChar) = []
          · rw [if_pos hdw, if_pos hdw]
            exact ih g t (by omega) (by omega)
          · rw [if_neg hdw, if_neg hdw]
            have h2 : (((c :: t).drop markerL.length).dropWhile
                (fun ch => ch ≠ quoteChar)).length ≤ t.length + 1 - 9 := by
              calc (((c :: t).drop markerL.length).dropWhile
                  (fun ch => ch ≠ quoteChar)).length
                  ≤ ((c :: t).drop markerL.length).length := (List.dropWhile_suffix _).length_le
                _ = t.length + 1 - 9 := by
                    simp [List.length_drop, markerL_length]
            by_cases hg0 : ((c :: t).drop markerL.length).takeWhile (fun ch => ch ≠ quoteChar) = []
            · rw [if_pos hg0, if_pos hg0]
              exact ih g t (by omega) (by omega)
            · rw [if_neg hg0, if_neg hg0]
              congr 1
              have h3 : (((c :: t).drop markerL.length).dropWhile
                  (fun ch => ch ≠ quoteChar)).tail.length
                  = (((c :: t).drop markerL.length).dropWhile
                    (fun ch => ch ≠ quoteChar)).length - 1 := List.length_tail _
              exact ih g _ (by omega) (by omega)
        · rw [if_neg hp, if_neg hp]
          exact ih g t (by omega) (by omega)

lemma extract_cons_neg {c : Char} {t : List Char} (h : ¬ markerL <+: (c :: t)) :
    extract_missing_ids (c :: t) = extract_missing_ids t := by
  show exAux (t.length + 1) (c :: t) = _
  simp only [exAux, if_neg h]
  rfl

lemma extract_cons_pos {c : Char} {t grp : List Char} {q : Char} {rest2 : List Char}
    (h : markerL <+: (c :: t))
    (hgrp : ((c :: t).drop markerL.length).takeWhile (fun ch => ch ≠ quoteChar) = grp)
    (hdw : ((c :: t).drop markerL.length).dropWhile (fun ch => ch ≠ quoteChar) = q :: rest2)
    (hgne : grp ≠ []) :
    extract_missing_ids (c :: t) = grp :: extract_missing_ids rest2 := by
  show exAux (t.length + 1) (c :: t) = _
  simp only [exAux, if_pos h, hdw, hgrp, if_neg hgne,
    if_neg (List.cons_ne_nil q rest2), List.tail_cons]
  congr 1
  apply exAux_congr
  · have h1 := congrArg List.length hdw
    have h2 : (((c :: t).drop markerL.length).dropWhile
        (fun ch => ch ≠ quoteChar)).length ≤ t.length + 1 - 9 := by
      calc (((c :: t).drop markerL.length).dropWhile
          (fun ch => ch ≠ quoteChar)).length
          ≤ ((c :: t).drop markerL.length).length := (List.dropWhile_suffix _).length_le
        _ = t.length + 1 - 9 := by
            simp [List.length_drop, markerL_length]
    rw [h1] at h2
    simp only [List.length_cons] at h2
    omega
  · exact le_rfl

lemma extract_junk : ∀ (j : List Char) (rest : List Char), quoteChar ∉ j →
    (rest = [] ∨ markerL <+: rest) →
    extract_missing_ids (j ++ rest) = extract_missing_ids rest := by
  intro j
  induction j with
  | nil => intro rest _ _; rw [List.nil_append]
  | cons c j' ih =>
    intro rest hq hrest
    have hnp : ¬ markerL <+: ((c :: j') ++ rest) := by
      intro hp
      have htake : markerL = ((c :: j') ++ rest).take 9 := by
        have h0 := List.prefix_iff_eq_take.mp hp
        rw [markerL_length] at h0
        exact h0
      rw [List.take_append_eq_append_take] at htake
      by_cases hy : 9 ≤ (c :: j').length
      · have hz : 9 - (c :: j').length = 0 := by omega
        rw [hz, List.take_zero, List.append_nil] at htake
        have hpre : markerL <+: (c :: j') := by
          rw [htake]
          exact List.take_prefix 9 _
        exact hq (hpre.subset (by decide))
      · have hyle : (c :: j').length ≤ 9 := by omega
        rw [List.take_of_length_le hyle] at htake
        have heq : (c :: j') ++ rest.take (9 - (c :: j').length)
            = markerL.take (c :: j').length ++ markerL.drop (c :: j').length := by
          rw [List.take_append_drop]
          exact htake.symm
        have hsplit := List.append_inj heq
          (by simp only [List.length_take, markerL_length]; omega)
        rcases hrest with hre | hre
        · subst hre
          have h3 := congrArg List.length hsplit.2
          simp only [List.take_nil, List.length_nil, List.length_drop, markerL_length] at h3
          omega
        · obtain ⟨rr, hrr⟩ := hre
          have h2 := hsplit.2
          rw [← hrr, List.take_append_eq_append_take] at h2
          have h4 : 9 - (c :: j').length - markerL.length = 0 := by
            rw [markerL_length]; omega
          rw [h4, List.take_zero, List.append_nil] at h2
          have hk0 : 0 < (c :: j').length := by simp
          have hk9 : (c :: j').length < 9 := by omega
          exact markerL_no_border (c :: j').length hk9 hk0 h2
    rw [List.cons_append, extract_cons_neg (by rw [← List.cons_append]; exact hnp),
      ih rest (fun hm => hq (List.mem_cons_of_mem c hm)) hrest]

lemma extract_append_marker (idL rest : List Char) (hne : idL ≠ []) (hq : quoteChar ∉ idL) :
    extract_missing_ids (markerL ++ (idL ++ quoteChar :: rest))
      = idL :: extract_missing_ids rest := by
  have hdropm : (markerL ++ (idL ++ quoteChar :: rest)).drop markerL.length
      = idL ++ quoteChar :: rest := List.drop_left markerL _
  have hid : ∀ a ∈ idL, (fun ch => decide (ch ≠ quoteChar)) a = true := by
    intro a ha
    exact decide_eq_true (fun he => hq (he ▸ ha))
  have htw : ((markerL ++ (idL ++ quoteChar :: rest)).drop markerL.length).takeWhile
      (fun ch => ch ≠ quoteChar) = idL := by
    rw [hdropm, List.takeWhile_append_of_pos hid, List.takeWhile_cons]
    simp
  have hdw : ((markerL ++ (idL ++ quoteChar :: rest)).drop markerL.length).dropWhile
      (fun ch => ch ≠ quoteChar) = quoteChar :: rest := by
    rw [hdropm, List.dropWhile_append_of_pos hid, List.dropWhile_cons]
    simp
  have hcons : markerL ++ (idL ++ quoteChar :: rest)
      = 'M' :: ('o' :: 'd' :: ' ' :: 'I' :: 'D' :: ':' :: ' ' :: quoteChar
        :: (idL ++ quoteChar :: rest)) := rfl
  rw [hcons] at htw hdw ⊢
  exact extract_cons_pos (by rw [← hcons]; exact List.prefix_append _ _) htw hdw hne

/-- Extraction on a log assembled from apostrophe-free junk interleaved
with `Mod ID: '<id>'` occurrences recovers exactly the ids, in order,
duplicates included. -/
lemma extract_mkLog : ∀ (ids js : List (List Char)), js.length = ids.length + 1 →
    (∀ j ∈ js, quoteChar ∉ j) → (∀ d ∈ ids, d ≠ [] ∧ quoteChar ∉ d) →
    extract_missing_ids (mkLog js ids) = ids := by
  intro ids
  induction ids with
  | nil =>
    intro js hlen hjs _
    cases js with
    | nil => simp at hlen
    | cons j js' =>
      cases js' with
      | nil =>
        have h1 : mkLog [j] [] = j := rfl
        rw [h1]
        have h2 := extract_junk j [] (hjs j (by simp)) (Or.inl rfl)
        rw [List.append_nil] at h2
        rw [h2]
        rfl
      | cons j2 js'' => simp at hlen
  | cons d ids ih =>
    intro js hlen hjs hids
    cases js with
    | nil => simp at hlen
    | cons j js' =>
      have hd := hids d (by simp)
      have h1 : mkLog (j :: js') (d :: ids)
          = j ++ (markerL ++ (d ++ quoteChar :: mkLog js' ids)) := by
        simp [mkLog, List.append_assoc]
      rw [h1, extract_junk j _ (hjs j (by simp)) (Or.inr (List.prefix_append _ _)),
        extract_append_marker d (mkLog js' ids) hd.1 hd.2]
      congr 1
      exact ih js' (by simpa using hlen) (fun x hx => hjs x (by simp [hx]))
        (fun x hx => hids x (by simp [hx]))

end ExtractLemmas

section Claims

/-- C4 counterexample: on a directory holding only `b.jar.disabled`, a file
that carried the marker before the tool started, `enable_all` (which
iterates the `*.jar`-globbed in-memory inventory) changes nothing, so a
file carrying the marker suffix remains after it. -/
theorem claim_C4_counterexample :
    enableAllDirAfterLoad ["b.jar.disabled".toList] = ["b.jar.disabled".toList]
      ∧ "b.jar.disabled".toList ∈ enableAllDirAfterLoad ["b.jar.disabled".toList]
      ∧ disabledTail <:+ "b.jar.disabled".toList := by
  refine ⟨by decide, by decide, ?_⟩
  decide

/-- C4 (amended): after `enable_all`, no file of the in-memory inventory
carries the marker suffix; but `enable_all` iterates the inventory built
from the `*.jar` glob, not a re-glob of the directory, so a file that
already carried the marker before load is not in the inventory and is left
unchanged, marker included. -/
theorem claim_C4_enable_all (ms : List Mod) (hms : InvL ms) (n : List Char)
    (hn : ¬ jarL <:+ n) :
    (∀ m ∈ enable_all ms, ¬ disabledTail <:+ m.path)
      ∧ (∀ dir : List (List Char), n ∈ dir → n ∈ enableAllDirAfterLoad dir) := by
  constructor
  · intro m hm
    exact jar_suffix_not_disabledTail (invL_enable_all hms m hm)
  · intro dir hdir
    exact List.mem_map.mpr ⟨n, hdir, if_neg hn⟩

theorem claim_C4_witness :
    (¬ disabledTail <:+ (Mod.enable ⟨"x.jar".toList, none⟩).path)
      ∧ "b.jar.disabled".toList ∈ enableAllDirAfterLoad ["b.jar.disabled".toList] :=
  ⟨(claim_C4_enable_all [⟨"x.jar".toList, none⟩] (by decide) "b.jar.disabled".toList
      (by decide)).1 (Mod.enable ⟨"x.jar".toList, none⟩) (by decide),
   (claim_C4_enable_all [⟨"x.jar".toList, none⟩] (by decide) "b.jar.disabled".toList
      (by decide)).2 ["b.jar.disabled".toList] (by decide)⟩

/-- C5 counterexample: for the archive name `a.jar.disabled.jar` (which
ends in the plain `.jar` extension), disable followed by enable yields
`a.jar.jar`, not the original path: `mod.enable` replaces every occurrence
of `.jar.disabled`, including the embedded one. -/
theorem claim_C5_counterexample :
    enablePath (disablePath ("a.jar.disabled.jar".toList)) ≠ "a.jar.disabled.jar".toList
      ∧ enablePath (disablePath ("a.jar.disabled.jar".toList)) = "a.jar.jar".toList := by
  constructor
  · decide
  · decide

/-- C5 (amended): the enable/disable round trips restore the original path
for every archive name whose base is nonempty and free of embedded
`.jar.disabled` occurrences; with an embedded occurrence the
all-occurrence replacement in `mod.enable` breaks the round trip. -/
theorem claim_C5_roundtrip (s : List Char) (h : CleanBase s) :
    enablePath (disablePath (s ++ jarL)) = s ++ jarL
      ∧ disablePath (enablePath (s ++ disSuf)) = s ++ disSuf := by
  obtain ⟨hne, hni⟩ := h
  constructor
  · rw [disablePath_append_jar hne, enablePath_of_disSuf (List.suffix_append s disSuf),
      replace_clean s (fun hi => hni (infix_append_left hi))]
  · rw [enablePath_of_disSuf (List.suffix_append s disSuf),
      replace_clean s (fun hi => hni (infix_append_left hi)), disablePath_append_jar hne]

theorem claim_C5_witness :
    CleanBase ("a".toList)
      ∧ enablePath (disablePath ("a".toList ++ jarL)) = "a".toList ++ jarL
      ∧ disablePath (enablePath ("a".toList ++ disSuf)) = "a".toList ++ disSuf :=
  ⟨by decide, claim_C5_roundtrip ("a".toList) (by decide)⟩

/-- C6 counterexample: `run_server` also returns 124 when the child process
itself exits with code 124 without any timeout, so "returns 124 if and
only if the run timed out" fails as stated. -/
theorem claim_C6_counterexample :
    run_server (SpawnOutcome.exited 124) = 124
      ∧ SpawnOutcome.exited 124 ≠ SpawnOutcome.timedOut :=
  ⟨rfl, by decide⟩

/-- C6 (amended): `run_server` returns 124 on timeout, the generic failure
status 1 on any other failure to spawn, and otherwise the child's real exit
code (it is total, so it never propagates an exception); consequently 124
identifies a timeout exactly when the child did not itself exit with
code 124 — the domain convention the spec assumes. -/
theorem claim_C6_run_server :
    run_server SpawnOutcome.timedOut = 124
      ∧ run_server SpawnOutcome.spawnFail = 1
      ∧ (∀ code : Int, run_server (SpawnOutcome.exited code) = code)
      ∧ ∀ o : SpawnOutcome, o ≠ SpawnOutcome.exited 124 →
          (run_server o = 124 ↔ o = SpawnOutcome.timedOut) := by
  refine ⟨rfl, rfl, fun _ => rfl, ?_⟩
  intro o ho
  cases o with
  | exited code =>
    constructor
    · intro hc
      have hcode : code = 124 := hc
      exact absurd (by rw [hcode]) ho
    · intro hc
      exact SpawnOutcome.noConfusion hc
  | timedOut => exact ⟨fun _ => rfl, fun _ => rfl⟩
  | spawnFail =>
    constructor
    · intro hc
      exact absurd hc (by decide)
    · intro hc
      exact SpawnOutcome.noConfusion hc

theorem claim_C6_witness :
    SpawnOutcome.spawnFail ≠ SpawnOutcome.exited 124
      ∧ (run_server SpawnOutcome.spawnFail = 124 ↔ SpawnOutcome.spawnFail = SpawnOutcome.timedOut) :=
  ⟨by decide, claim_C6_run_server.2.2.2 SpawnOutcome.spawnFail (by decide)⟩

/-- C7: extraction returns exactly the ids captured by the fixed pattern
`Mod ID: '<id>'` in first-occurrence order, duplicates included: on any log
assembled from apostrophe-free junk segments interleaved with the pattern
occurrences, the result is exactly the interleaved id list in order. -/
theorem claim_C7_extract (ids js : List (List Char)) (hlen : js.length = ids.length + 1)
    (hjs : ∀ j ∈ js, quoteChar ∉ j) (hids : ∀ d ∈ ids, d ≠ [] ∧ quoteChar ∉ d) :
    extract_missing_ids (mkLog js ids) = ids :=
  extract_mkLog ids js hlen hjs hids

theorem claim_C7_witness :
    extract_missing_ids
        (mkLog ["some junk ".toList, " more ".toList, " tail".toList]
          ["alpha".toList, "beta".toList])
      = ["alpha".toList, "beta".toList] :=
  claim_C7_extract ["alpha".toList, "beta".toList]
    ["some junk ".toList, " more ".toList, " tail".toList] rfl (by decide) (by decide)

/-- C8: id extraction is a total function (it never raises): it returns
`none` on an unreadable archive, on an archive with no recognized
descriptor entry, and on a first descriptor whose content matches neither
the assignment-style nor the JSON-style pattern; and the directory scan
builds one mod per `*.jar` file regardless of id extraction outcomes. -/
theorem claim_C8_get_modid :
    get_modid_from_jar Archive.corrupt = none
      ∧ (∀ entries, entries.filter (fun e => isMetaName e.1) = [] →
          get_modid_from_jar (Archive.zip entries) = none)
      ∧ (∀ entries nm content rest,
          entries.filter (fun e => isMetaName e.1) = (nm, content) :: rest →
          searchAssign content.length content = none →
          searchJson content.length content = none →
          get_modid_from_jar (Archive.zip entries) = none)
      ∧ (∀ (dir : List (List Char)) (arch : List Char → Archive),
          (load_mods dir arch).length = (dir.filter (fun n => decide (jarL <:+ n))).length) := by
  refine ⟨rfl, ?_, ?_, ?_⟩
  · intro entries hf
    simp only [get_modid_from_jar, hf]
  · intro entries nm content rest hf h1 h2
    simp only [get_modid_from_jar, hf, h1, h2]
  · intro dir arch
    simp [load_mods]

theorem claim_C8_witness :
    get_modid_from_jar (Archive.zip [("META-INF/mods.toml".toList, "junk".toList)]) = none
      ∧ (load_mods ["a.jar".toList, "b.txt".toList] (fun _ => Archive.corrupt)).length
        = (["a.jar".toList, "b.txt".toList].filter (fun n => decide (jarL <:+ n))).length :=
  ⟨claim_C8_get_modid.2.2.1 [("META-INF/mods.toml".toList, "junk".toList)]
      "META-INF/mods.toml".toList "junk".toList [] (by decide) rfl rfl,
   claim_C8_get_modid.2.2.2 ["a.jar".toList, "b.txt".toList] (fun _ => Archive.corrupt)⟩

/-- C9: whatever inventory state the run has reached when a user interrupt
arrives (every filesystem effect of the loop is an enable or disable of
some inventory entry), the top-level handler's `enable_all` restoration
leaves every inventory mod enabled — none carries the marker — so the mods
directory is never left partially disabled by an interrupt. -/
theorem claim_C9_interrupt (ms0 ms' : List Mod) (h0 : ∀ m ∈ ms0, jarL <:+ m.path)
    (hr : Reachable ms0 ms') :
    ∀ m ∈ interruptedRun ms', jarL <:+ m.path ∧ ¬ disabledTail <:+ m.path := by
  have hinv : InvL ms' := invL_reachable (invL_of_allJar h0) hr
  intro m hm
  have hj : jarL <:+ m.path := invL_enable_all hinv m hm
  exact ⟨hj, jar_suffix_not_disabledTail hj⟩

theorem claim_C9_witness :
    jarL <:+ (Mod.enable ⟨"a.jar.disabled".toList, none⟩).path
      ∧ ¬ disabledTail <:+ (Mod.enable ⟨"a.jar.disabled".toList, none⟩).path :=
  claim_C9_interrupt [⟨"a.jar".toList, none⟩] (modifyAt Mod.disable 0 [⟨"a.jar".toList, none⟩])
    (by decide) (Relation.ReflTransGen.single ⟨0, Or.inr rfl⟩)
    (Mod.enable ⟨"a.jar.disabled".toList, none⟩) (by decide)

/-- C2: when the first server run of the current mod returns the timeout
sentinel 124, the mod (enabled for the run) is disabled again and the loop
proceeds to the next mod with the next run — no crash is reported for it —
and the log text of that run is never inspected: any environment differing
from `env` only in the log of run `k` produces the same outcome. -/
theorem claim_C2_timeout (env env' : Nat → Int × List Char) (c i k : Nat)
    (ms : List Mod) (s : List Char) (hcb : CleanBase s)
    (hpath : pathAt ms i = s ++ disSuf)
    (h124 : (env k).1 = 124)
    (henv' : ∀ j, j ≠ k → env' j = env j) (h124' : (env' k).1 = 124) :
    loopFrom env (c + 1) ms i k
        = loopFrom env c (modifyAt Mod.disable i (modifyAt Mod.enable i ms)) (i + 1) (k + 1)
      ∧ pathAt (modifyAt Mod.disable i (modifyAt Mod.enable i ms)) i = s ++ disSuf
      ∧ loopFrom env' (c + 1) ms i k = loopFrom env (c + 1) ms i k := by
  have heq : loopFrom env (c + 1) ms i k
      = loopFrom env c (modifyAt Mod.disable i (modifyAt Mod.enable i ms)) (i + 1) (k + 1) := by
    simp only [loopFrom]
    rw [if_pos h124]
  have heq' : loopFrom env' (c + 1) ms i k
      = loopFrom env' c (modifyAt Mod.disable i (modifyAt Mod.enable i ms)) (i + 1) (k + 1) := by
    simp only [loopFrom]
    rw [if_pos h124']
  refine ⟨heq, ?_, ?_⟩
  · rw [pathAt_modifyAt_disable, pathAt_modifyAt_enable, hpath,
      enablePath_of_disSuf (List.suffix_append s disSuf),
      replace_clean s (fun hi => hcb.2 (infix_append_left hi)),
      disablePath_append_jar hcb.1]
  · rw [heq, heq']
    exact loopFrom_congr env' env c _ (i + 1) (k + 1) (fun j hj => henv' j (by omega))

theorem claim_C2_witness :
    loopFrom (fun _ => ((124 : Int), ([] : List Char))) 1 [⟨"a.jar.disabled".toList, none⟩] 0 0
        = loopFrom (fun _ => ((124 : Int), ([] : List Char))) 0
            (modifyAt Mod.disable 0 (modifyAt Mod.enable 0 [⟨"a.jar.disabled".toList, none⟩])) 1 1
      ∧ pathAt (modifyAt Mod.disable 0 (modifyAt Mod.enable 0 [⟨"a.jar.disabled".toList, none⟩])) 0
        = "a".toList ++ disSuf
      ∧ loopFrom (fun j => ((124 : Int), if j = 0 then "never inspected".toList else [])) 1
            [⟨"a.jar.disabled".toList, none⟩] 0 0
        = loopFrom (fun _ => ((124 : Int), ([] : List Char))) 1
            [⟨"a.jar.disabled".toList, none⟩] 0 0 :=
  claim_C2_timeout (fun _ => ((124 : Int), ([] : List Char)))
    (fun j => ((124 : Int), if j = 0 then "never inspected".toList else [])) 0 0 0
    [⟨"a.jar.disabled".toList, none⟩] "a".toList (by decide) (by decide) rfl
    (fun j hj => by simp [hj]) rfl

/-- C10: on the dependency rerun, the exit status is never compared against
the timeout sentinel: under the hypotheses that put the loop on the
dependency-retry path, even when the rerun returns status 124 the rerun log
is still read, and since it contains the crash string the current mod is
reported as the culprit (by `m.modid`) with the retry state disabled. -/
theorem claim_C10_rerun_timeout (env : Nat → Int × List Char) (c i k : Nat) (ms : List Mod)
    (h124 : (env k).1 ≠ 124)
    (hnc : ¬ ERROR_STRL <:+: (env k).2)
    (hmiss : extract_missing_ids (env k).2 ≠ [])
    (_h124rerun : (env (k + 1)).1 = 124)
    (hcr : ERROR_STRL <:+: (env (k + 1)).2) :
    loopFrom env (c + 1) ms i k
      = (Report.crashId (modidAt ms i), depRetryFinal env k i ms) := by
  simp only [loopFrom]
  rw [if_neg h124, if_neg hnc, if_neg hmiss, if_pos hcr]
  rfl

theorem claim_C10_witness :
    loopFrom
        (fun j => if j = 0 then ((0 : Int), "Mod ID: ".toList ++ [quoteChar] ++ "e".toList
          ++ [quoteChar]) else ((124 : Int), ERROR_STRL))
        1 [⟨"d.jar.disabled".toList, some ("d".toList)⟩] 0 0
      = (Report.crashId (modidAt [⟨"d.jar.disabled".toList, some ("d".toList)⟩] 0),
          depRetryFinal
            (fun j => if j = 0 then ((0 : Int), "Mod ID: ".toList ++ [quoteChar] ++ "e".toList
              ++ [quoteChar]) else ((124 : Int), ERROR_STRL))
            0 0 [⟨"d.jar.disabled".toList, some ("d".toList)⟩]) :=
  claim_C10_rerun_timeout
    (fun j => if j = 0 then ((0 : Int), "Mod ID: ".toList ++ [quoteChar] ++ "e".toList
      ++ [quoteChar]) else ((124 : Int), ERROR_STRL))
    0 0 0 [⟨"d.jar.disabled".toList, some ("d".toList)⟩]
    (by decide) (by decide) (by decide) rfl (by decide)

/-- C1: when the first run of mod i neither times out nor crashes but its
log carries missing-dependency markers that all resolve to inventory mods,
the loop enables those dependencies, reruns the server, and — the rerun log
containing the crash signature — reports mod i (its `modid`, not any
dependency) as the culprit, returns at once, and leaves mod i and every
temporarily-enabled dependency disabled. -/
theorem claim_C1_dep_retry (env : Nat → Int × List Char) (c i k : Nat) (ms : List Mod)
    (hi : i < ms.length)
    (hclean : allClean ms)
    (h124 : (env k).1 ≠ 124)
    (hnc : ¬ ERROR_STRL <:+: (env k).2)
    (hmiss : extract_missing_ids (env k).2 ≠ [])
    (hres : ∀ d ∈ extract_missing_ids (env k).2, (find_mod_by_id ms d).isSome)
    (hcr : ERROR_STRL <:+: (env (k + 1)).2) :
    loopFrom env (c + 1) ms i k
        = (Report.crashId (modidAt ms i), depRetryFinal env k i ms)
      ∧ disSuf <:+ pathAt (depRetryFinal env k i ms) i
      ∧ (∀ j ∈ (depRetryState env k i ms).2, disSuf <:+ pathAt (depRetryFinal env k i ms) j)
      ∧ ∀ d ∈ extract_missing_ids (env k).2, ∃ j ∈ (depRetryState env k i ms).2,
          modidAt ms j = some d ∧ jarL <:+ pathAt (depRetryState env k i ms).1 j := by
  have heq : loopFrom env (c + 1) ms i k
      = (Report.crashId (modidAt ms i), depRetryFinal env k i ms) := by
    simp only [loopFrom]
    rw [if_neg h124, if_neg hnc, if_neg hmiss, if_pos hcr]
    rfl
  have hclean1 : allClean (modifyAt Mod.enable i ms) := allClean_enableAt i hclean
  obtain ⟨edlen, edclean, edfix, edmem, edmid, edfound⟩ :=
    enableDeps_spec (extract_missing_ids (env k).2) (modifyAt Mod.enable i ms) hclean1
  have hlen1 : (modifyAt Mod.enable i ms).length = ms.length := modifyAt_length _ _ _
  obtain ⟨dllen, dlclean, dlfix, dlmem, dlout⟩ :=
    disableList_spec (enableDeps (modifyAt Mod.enable i ms) (extract_missing_ids (env k).2)).2
      (enableDeps (modifyAt Mod.enable i ms) (extract_missing_ids (env k).2)).1 edclean
  obtain ⟨s, hb, _, hen, _⟩ := clean_toggle (hclean i hi)
  have hv1 : pathAt (modifyAt Mod.enable i ms) i = s ++ jarL := by
    rw [pathAt_modifyAt_enable, hen]
  have hv1' : cleanEnabled (pathAt (modifyAt Mod.enable i ms) i) := by
    rw [hv1]
    exact ⟨s, hb, rfl⟩
  refine ⟨heq, ?_, ?_, ?_⟩
  · unfold depRetryFinal depRetryState
    by_cases hin : i ∈ (enableDeps (modifyAt Mod.enable i ms) (extract_missing_ids (env k).2)).2
    · have hlt : i < (enableDeps (modifyAt Mod.enable i ms)
          (extract_missing_ids (env k).2)).1.length := by
        rw [edlen, hlen1]
        exact hi
      exact disSuf_suffix_after_disableAt dlclean (by rw [dllen]; exact hlt)
        (dlmem i hin hlt) i
    · have hv2 : pathAt (enableDeps (modifyAt Mod.enable i ms)
          (extract_missing_ids (env k).2)).1 i = s ++ jarL := by
        rw [edfix i hv1', hv1]
      have hv3 : pathAt (disableList
          (enableDeps (modifyAt Mod.enable i ms) (extract_missing_ids (env k).2)).1
          (enableDeps (modifyAt Mod.enable i ms) (extract_missing_ids (env k).2)).2) i
          = s ++ jarL := by
        rw [dlout i hin, hv2]
      rw [pathAt_modifyAt_disable, hv3, disablePath_append_jar hb.1]
      exact List.suffix_append s disSuf
  · unfold depRetryFinal depRetryState
    intro j hj
    obtain ⟨hjlt, _⟩ := edmem j hj
    rw [hlen1] at hjlt
    have hjlt' : j < (enableDeps (modifyAt Mod.enable i ms)
        (extract_missing_ids (env k).2)).1.length := by
      rw [edlen, hlen1]
      exact hjlt
    exact disSuf_suffix_after_disableAt dlclean (by rw [dllen]; exact hjlt')
      (dlmem j hj hjlt') i
  · unfold depRetryState
    intro d hd
    have hsome := hres d hd
    cases hfind : find_mod_by_id ms d with
    | none => rw [hfind] at hsome; exact absurd hsome (by simp)
    | some j =>
      have hfind1 : find_mod_by_id (modifyAt Mod.enable i ms) d = some j := by
        rw [find_mod_by_id_modifyAt Mod.enable (fun _ => rfl) d i ms]
        exact hfind
      have hjmem := edfound d hd j hfind1
      refine ⟨j, hjmem, (find_mod_by_id_lt hfind).2, ?_⟩
      obtain ⟨_, hce⟩ := edmem j hjmem
      obtain ⟨s', _, hs'⟩ := hce
      rw [hs']
      exact List.suffix_append s' jarL

theorem claim_C1_witness :
    loopFrom
        (fun j => if j = 0 then ((0 : Int), "Mod ID: ".toList ++ [quoteChar] ++ "e".toList
          ++ [quoteChar]) else ((0 : Int), ERROR_STRL))
        1 [⟨"d.jar.disabled".toList, some ("d".toList)⟩, ⟨"e.jar.disabled".toList,
          some ("e".toList)⟩] 0 0
      = (Report.crashId (modidAt [⟨"d.jar.disabled".toList, some ("d".toList)⟩,
            ⟨"e.jar.disabled".toList, some ("e".toList)⟩] 0),
          depRetryFinal
            (fun j => if j = 0 then ((0 : Int), "Mod ID: ".toList ++ [quoteChar] ++ "e".toList
              ++ [quoteChar]) else ((0 : Int), ERROR_STRL))
            0 0 [⟨"d.jar.disabled".toList, some ("d".toList)⟩, ⟨"e.jar.disabled".toList,
              some ("e".toList)⟩])
      ∧ disSuf <:+ pathAt (depRetryFinal
            (fun j => if j = 0 then ((0 : Int), "Mod ID: ".toList ++ [quoteChar] ++ "e".toList
              ++ [quoteChar]) else ((0 : Int), ERROR_STRL))
            0 0 [⟨"d.jar.disabled".toList, some ("d".toList)⟩, ⟨"e.jar.disabled".toList,
              some ("e".toList)⟩]) 0
      ∧ disSuf <:+ pathAt (depRetryFinal
            (fun j => if j = 0 then ((0 : Int), "Mod ID: ".toList ++ [quoteChar] ++ "e".toList
              ++ [quoteChar]) else ((0 : Int), ERROR_STRL))
            0 0 [⟨"d.jar.disabled".toList, some ("d".toList)⟩, ⟨"e.jar.disabled".toList,
              some ("e".toList)⟩]) 1 := by
  have h := claim_C1_dep_retry
    (fun j => if j = 0 then ((0 : Int), "Mod ID: ".toList ++ [quoteChar] ++ "e".toList
      ++ [quoteChar]) else ((0 : Int), ERROR_STRL))
    0 0 0 [⟨"d.jar.disabled".toList, some ("d".toList)⟩, ⟨"e.jar.disabled".toList,
      some ("e".toList)⟩]
    (by decide)
    (by
      intro j hj
      rcases j with _ | _ | n
      · exact ⟨"d".toList, by decide, Or.inr (by decide)⟩
      · exact ⟨"e".toList, by decide, Or.inr (by decide)⟩
      · simp only [List.length_cons, List.length_nil] at hj
        omega)
    (by decide) (by decide) (by decide) (by decide) (by decide)
  exact ⟨h.1, h.2.1, h.2.2.1 1 (by decide)⟩

/-- C3: when no run's log ever contains the crash signature, `main` runs
the loop over the whole inventory to completion, reports "no offending mod
found", and the final inventory is fully re-enabled: every mod's file ends
in the plain `.jar` extension again. -/
theorem claim_C3_no_offender (env : Nat → Int × List Char) (ms0 : List Mod)
    (h0 : ∀ m ∈ ms0, jarL <:+ m.path) (hne : ms0 ≠ [])
    (hnc : ∀ j, ¬ ERROR_STRL <:+: (env j).2) :
    mainRun env ms0
        = MainResult.done Report.noOffender (loopFrom env ms0.length (disable_all ms0) 0 0).2
      ∧ ∀ m ∈ (loopFrom env ms0.length (disable_all ms0) 0 0).2, jarL <:+ m.path := by
  have hlen : ¬ ms0.length = 0 := fun h => hne (List.length_eq_zero.mp h)
  have hl := loopFrom_noCrash env hnc ms0.length (disable_all ms0) 0 0
    (invL_disable_all (invL_of_allJar h0))
  constructor
  · unfold mainRun
    rw [if_neg hlen]
    show MainResult.done (loopFrom env ms0.length (disable_all ms0) 0 0).1
      (loopFrom env ms0.length (disable_all ms0) 0 0).2 = _
    rw [hl.1]
  · exact hl.2

theorem claim_C3_witness :
    mainRun (fun _ => ((0 : Int), ([] : List Char))) [⟨"a.jar".toList, none⟩]
        = MainResult.done Report.noOffender
            (loopFrom (fun _ => ((0 : Int), ([] : List Char))) 1
              (disable_all [⟨"a.jar".toList, none⟩]) 0 0).2
      ∧ jarL <:+ (⟨"a.jar".toList, none⟩ : Mod).path := by
  have h := claim_C3_no_offender (fun _ => ((0 : Int), ([] : List Char)))
    [⟨"a.jar".toList, none⟩] (by decide) (by decide)
    (fun j => by change ¬ ERROR_STRL <:+: ([] : List Char); decide)
  exact ⟨h.1, h.2 ⟨"a.jar".toList, none⟩ (by decide)⟩

end Claims

end MercSniper
